import Mathlib

/-!
# Verification of the openword paginated editor core

Shallow embedding of the page-flow engine, the inline-format model, the
persistence layer and the page-break handler of
`src/components/Editor/index.tsx`, `src/storage/local.ts` and
`src/models/document.ts`, together with proofs settling the frozen claims
about them.

Pixel heights are modelled as `Nat`: the engine only ever adds heights and
compares them against the fixed budget, so the integral model preserves the
control flow of the source exactly.
-/

set_option autoImplicit false

namespace Openword

/-! ## Block / page tree

A block as seen by the flow engine: an identifier, the page-break flag
(`data-page-break` attribute) and the height reported by the layout oracle
(`getBoundingClientRect().height` plus margins).  Page-break elements are
styled `height:0; margin:0`, so their measured height is always `0`. -/

structure Block where
  id : Nat
  isPageBreak : Bool
  height : Nat
deriving DecidableEq, Repr

/-- The measured height of a block element: page-break sentinels render at 0. -/
def measuredHeight (b : Block) : Nat :=
  if b.isPageBreak then 0 else b.height

/-- A page's content element: its ordered list of block elements. -/
abbrev Page := List Block

/-- The editor's ordered list of pages (`pageRefsRef.current`). -/
abbrev Doc := List Page

/-- `getPageContentMaxHeight`: the fixed content budget, 931 px. -/
def getPageContentMaxHeight : Nat := 931

/-- Number of non-page-break blocks on a page (`nonPageBreakBlocks.length`). -/
def nonPbCount (p : Page) : Nat :=
  (p.filter (fun b => !b.isPageBreak)).length

/-- Sum of the heights of the non-page-break blocks of a page: the quantity
the budget invariant speaks about. -/
def nonPbSum (p : Page) : Nat :=
  ((p.filter (fun b => !b.isPageBreak)).map Block.height).sum

/-- Real rendered height of a page: sum of measured heights of all its
blocks (page breaks measure 0). -/
def realPageHeight (p : Page) : Nat :=
  (p.map measuredHeight).sum

/-- `calculatePageBlocksHeight`: folds over the page's blocks; a page-break
that is not the last element contributes `getPageContentMaxHeight () + 1000`
(the artificial push-down height), a final page break contributes 0, and a
normal block contributes its measured height. -/
def calculatePageBlocksHeight : Page → Nat
  | [] => 0
  | [b] => if b.isPageBreak then 0 else measuredHeight b
  | b :: rest =>
    (if b.isPageBreak then getPageContentMaxHeight + 1000 else measuredHeight b)
      + calculatePageBlocksHeight rest

/-! ## Forward overflow -/

/-- The split-point scan of `handleForwardOverflow` (lines 437-463): walk the
blocks accumulating non-page-break heights; a non-final page break yields the
position just after it; a block whose inclusion pushes the running total over
the budget yields its own position.  `acc` is the running total, the returned
index is relative to the list passed in. -/
def findSplit (acc : Nat) : List Block → Option Nat
  | [] => none
  | b :: rest =>
    if b.isPageBreak then
      if rest.isEmpty then none else some 1
    else
      if acc + b.height > getPageContentMaxHeight then some 0
      else (findSplit (acc + b.height) rest).map (· + 1)

/-- The split index chosen for a page. -/
def findSplitIndex (p : Page) : Option Nat :=
  findSplit 0 p

/-- `moveBlocksToNextPage`'s DOM loop: the moved run is iterated in reverse
and each element is inserted before the destination page's first child. -/
def moveBlocksToNextPage (moved next : List Block) : List Block :=
  moved.reverse.foldl (fun acc b => b :: acc) next

/-- One iteration body of the page loop in `handleForwardOverflow` for an
over-budget page `p` with following page `next`: returns the updated
`(p, next)` pair when a move fires, `none` otherwise. -/
def processPage (p next : Page) : Option (Page × Page) :=
  if calculatePageBlocksHeight p > getPageContentMaxHeight ∧ 1 < nonPbCount p then
    match findSplitIndex p with
    | some k =>
      if k < p.length then some (p.take k, moveBlocksToNextPage (p.drop k) next)
      else none
    | none => none
  else none

/-- One pass of the page loop: finds the first page on which a move fires and
applies it (creating the next page when the overflowing page is the last),
returning `none` when no page moves. -/
def forwardStep : Doc → Option Doc
  | [] => none
  | [p] =>
    match processPage p [] with
    | some (p', q') => some [p', q']
    | none => none
  | p :: q :: rest =>
    match processPage p q with
    | some (p', q') => some (p' :: q' :: rest)
    | none => (forwardStep (q :: rest)).map (p :: ·)

/-- `handleForwardOverflow`: repeat `forwardStep` until a full pass makes no
move.  The `while (hasChanges)` loop of the source does not terminate on all
inputs (a page whose first block alone exceeds the budget is pushed forward
forever), so the loop is modelled with fuel; the boolean is `true` exactly
when the loop exited because a pass made no change. -/
def handleForwardOverflow : Nat → Doc → Doc × Bool
  | 0, d => (d, false)
  | fuel + 1, d =>
    match forwardStep d with
    | none => (d, true)
    | some d' => handleForwardOverflow fuel d'

/-! ## Reverse compaction -/

/-- Whether a page contains a page-break block anywhere
(`querySelector('[data-page-break]')`). -/
def hasPageBreak (p : Page) : Bool :=
  p.any (·.isPageBreak)

/-- The greedy scan over the next page's blocks (lines 564-606): page breaks
are always taken (and set the `encounteredPageBreak` flag); after the flag is
set a non-page-break block is costed at budget + 1000 and therefore never
fits; otherwise a block is taken while the running height stays within
budget.  Returns how many leading blocks are pulled. -/
def pullCount (curH : Nat) (enc : Bool) : List Block → Nat
  | [] => 0
  | b :: rest =>
    if b.isPageBreak then
      1 + pullCount curH true rest
    else
      let bh := if enc then getPageContentMaxHeight + 1000 else b.height
      if curH + bh ≤ getPageContentMaxHeight then 1 + pullCount (curH + bh) enc rest
      else 0

/-- The pair loop of `handleReverseCompaction`: `cur` is the page at the
current index, the list holds the pages after it.  A pair is skipped when
the next page is empty or the current page contains a page break; otherwise
the computed prefix of the next page is pulled onto the end of the current
page; either way the loop moves on to the next pair. -/
def revGo (cur : Page) : Doc → Doc
  | [] => [cur]
  | next :: rest =>
    if next.isEmpty then
      cur :: revGo next rest
    else if hasPageBreak cur then
      cur :: revGo next rest
    else
      let m := pullCount (realPageHeight cur) false next
      (cur ++ next.take m) :: revGo (next.drop m) rest

/-- The pair loop started on a whole document suffix. -/
def reverseAux : Doc → Doc
  | [] => []
  | p :: rest => revGo p rest

/-- `handleReverseCompaction startPageIndex`: pages before the start index
are untouched. -/
def handleReverseCompaction (s : Nat) (d : Doc) : Doc :=
  d.take s ++ reverseAux (d.drop s)

/-! ## Page pruning -/

/-- The backwards removal loop of `removeEmptyPages`: `k` is the number of
pages before the current suffix; a page with no non-page-break blocks is
removed when the array as it stands at that moment still has more than one
page. -/
def pruneAux : Doc → Nat → Doc
  | [], _ => []
  | p :: rest, k =>
    let rest' := pruneAux rest (k + 1)
    if nonPbCount p = 0 ∧ 1 < k + 1 + rest'.length then rest'
    else p :: rest'

/-- `removeEmptyPages`. -/
def removeEmptyPages (d : Doc) : Doc :=
  pruneAux d 0

/-! ## The full flow pass -/

/-- `handlePageOverflow`: forward overflow, then reverse compaction seeded
from page `s` (the page holding the cursor), then pruning.  `none` when the
forward loop did not reach a fixpoint within the given fuel, i.e. the pass
never completed. -/
def handlePageOverflow (fuel s : Nat) (d : Doc) : Option Doc :=
  match handleForwardOverflow fuel d with
  | (d', true) => some (removeEmptyPages (handleReverseCompaction s d'))
  | (_, false) => none

/-! ## Inline format model

The formatted content of a block is the DOM fragment inside the block
element: a sequence of text nodes and `<span data-format="...">` elements,
spans possibly nested.  `applyFormat` computes whether the whole selection
already carries the format (`getActiveFormats`), breaks the selected region
into single-character nodes (`breakSelectionIntoCharacterNodes`), then adds
or removes the format on each selected character.  The merge pass
(`mergeAdjacentNodesWithSameFormatting`) is commented out in the source and
is therefore not part of the model of `applyFormat`.

Selection boundaries are modelled as character offsets; a text node takes
part in the selection when its character interval overlaps `[s, e)`
strictly, which matches `Range.intersectsNode` for a selection whose
boundary points lie in the first and last selected text nodes. -/

inductive Fmt where
  | bold | italic | strikethrough | underline
deriving DecidableEq, Repr

/-- The attribute token of a format, as written into `data-format`. -/
def Fmt.name : Fmt → List Char
  | .bold => ['b', 'o', 'l', 'd']
  | .italic => ['i', 't', 'a', 'l', 'i', 'c']
  | .strikethrough => ['s', 't', 'r', 'i', 'k', 'e', 't', 'h', 'r', 'o', 'u', 'g', 'h']
  | .underline => ['u', 'n', 'd', 'e', 'r', 'l', 'i', 'n', 'e']

/-- All four formats, in the alphabetical order produced by
`Array.from(set).sort()` on their names. -/
def allFmts : List Fmt := [.bold, .italic, .strikethrough, .underline]

/-- The sorted, duplicate-free list of formats of a set given by its
membership test: the canonical value written back into `data-format`. -/
def setToSorted (mem : Fmt → Bool) : List Fmt :=
  allFmts.filter mem

mutual
/-- A DOM node inside a block: a text node or a `data-format` span. -/
inductive DNode where
  | text : List Char → DNode
  | span : List Fmt → DForest → DNode
/-- A sequence of sibling DOM nodes. -/
inductive DForest where
  | nil : DForest
  | cons : DNode → DForest → DForest
end

def DForest.append : DForest → DForest → DForest
  | .nil, t => t
  | .cons n rest, t => .cons n (rest.append t)

mutual
/-- Total character length of the text under a node. -/
def DNode.textLen : DNode → Nat
  | .text s => s.length
  | .span _ kids => kids.textLen
def DForest.textLen : DForest → Nat
  | .nil => 0
  | .cons n rest => n.textLen + rest.textLen
end

/-- Space-joined format list, as serialized in the `data-format` attribute. -/
def joinFmts : List Fmt → List Char
  | [] => []
  | [f] => f.name
  | f :: rest => f.name ++ [' '] ++ joinFmts rest

mutual
/-- `innerHTML` of a node (text content taken verbatim). -/
def DNode.serialize : DNode → List Char
  | .text s => s
  | .span f kids =>
    "<span data-format=".toList ++ ['"'] ++ joinFmts f ++ ['"', '>']
      ++ kids.serialize ++ "</span>".toList
def DForest.serialize : DForest → List Char
  | .nil => []
  | .cons n rest => n.serialize ++ rest.serialize
end

mutual
/-- `getActiveFormats` restricted to one format: every text node whose
characters meet the selection carries `fm` on some enclosing span.  `anc`
records whether an ancestor span already carries the format. -/
def allHaveN (fm : Fmt) (anc : Bool) (s e pos : Nat) : DNode → Bool
  | .text str => if pos < e ∧ s < pos + str.length then anc else true
  | .span f kids => allHaveF fm (anc || f.contains fm) s e pos kids
def allHaveF (fm : Fmt) (anc : Bool) (s e pos : Nat) : DForest → Bool
  | .nil => true
  | .cons n rest =>
    allHaveN fm anc s e pos n && allHaveF fm anc s e (pos + n.textLen) rest
end

mutual
/-- Whether any text node meets the selection (the walker found at least one
text node). -/
def hasTextInN (s e pos : Nat) : DNode → Bool
  | .text str => decide (pos < e ∧ s < pos + str.length)
  | .span _ kids => hasTextInF s e pos kids
def hasTextInF (s e pos : Nat) : DForest → Bool
  | .nil => false
  | .cons n rest => hasTextInN s e pos n || hasTextInF s e (pos + n.textLen) rest
end

/-- `shouldRemove`: the selection is already entirely formatted with `fm`. -/
def shouldRemoveB (fm : Fmt) (s e : Nat) (f : DForest) : Bool :=
  hasTextInF s e 0 f && allHaveF fm false s e 0 f

/-- A selected character in `breakSelectionIntoCharacterNodes`: wrapped in a
span carrying the union of the ancestor formats when that set is non-empty,
left as a bare text node otherwise. -/
def wrapChar (ancSet : List Fmt) (c : Char) : DNode :=
  if ancSet.isEmpty then .text [c] else .span ancSet (.cons (.text [c]) .nil)

/-- Prepends a text node when the string is non-empty (`if (beforeText)`). -/
def textIf (s : List Char) (rest : DForest) : DForest :=
  if s.isEmpty then rest else .cons (.text s) rest

/-- The per-character nodes for the selected slice of a text node. -/
def charsForest (ancSet : List Fmt) (cs : List Char) (rest : DForest) : DForest :=
  cs.foldr (fun c acc => .cons (wrapChar ancSet c) acc) rest

mutual
/-- `breakSelectionIntoCharacterNodes` on one node.  A text node longer than
one character whose interval meets the selection is replaced by an optional
before-part, one node per selected character, and an optional after-part;
everything else is kept, recursing under spans with the accumulated ancestor
format list. -/
def breakN (anc : List Fmt) (s e pos : Nat) : DNode → DForest
  | .text str =>
    let s0 := max s pos - pos
    let e0 := min e (pos + str.length) - pos
    if 1 < str.length ∧ s0 < e0 then
      textIf (str.take s0)
        (charsForest (setToSorted (anc.contains ·)) ((str.drop s0).take (e0 - s0))
          (textIf (str.drop e0) .nil))
    else .cons (.text str) .nil
  | .span f kids => .cons (.span f (breakF (f ++ anc) s e pos kids)) .nil
def breakF (anc : List Fmt) (s e pos : Nat) : DForest → DForest
  | .nil => .nil
  | .cons n rest =>
    (breakN anc s e pos n).append (breakF anc s e (pos + n.textLen) rest)
end

/-- Whether a span has a direct single-character text child inside the
selection: exactly when the walker registers an update against this span as
`parentSpan`. -/
def spanTriggers (s e pos : Nat) : DForest → Bool
  | .nil => false
  | .cons n rest =>
    (match n with
     | .text str => decide (str.length = 1 ∧ s ≤ pos ∧ pos < e)
     | .span _ _ => false)
    || spanTriggers s e (pos + n.textLen) rest

/-- The new format list of a touched span: parse the attribute into a set,
delete or add the format, write back sorted.  An empty result unwraps the
span in `updateN`. -/
def newSpanFmts (rem : Bool) (fm : Fmt) (f : List Fmt) : List Fmt :=
  if rem then setToSorted (fun g => f.contains g && !(g == fm))
  else setToSorted (fun g => f.contains g || g == fm)

mutual
/-- The per-character update loop of `applyFormat` (lines 1425-1503):
a bare single-character text node in range is wrapped in a new span when
adding; a span with a single-character text child in range has its format
set updated, and is unwrapped when the set becomes empty. -/
def updateN (rem : Bool) (fm : Fmt) (s e pos : Nat) (underSpan : Bool) :
    DNode → DForest
  | .text str =>
    if str.length = 1 ∧ s ≤ pos ∧ pos < e ∧ underSpan = false ∧ rem = false then
      .cons (.span [fm] (.cons (.text str) .nil)) .nil
    else .cons (.text str) .nil
  | .span f kids =>
    let kids' := updateF rem fm s e pos true kids
    if spanTriggers s e pos kids then
      let nf := newSpanFmts rem fm f
      if nf.isEmpty then kids' else .cons (.span nf kids') .nil
    else .cons (.span f kids') .nil
def updateF (rem : Bool) (fm : Fmt) (s e pos : Nat) (underSpan : Bool) :
    DForest → DForest
  | .nil => .nil
  | .cons n rest =>
    (updateN rem fm s e pos underSpan n).append
      (updateF rem fm s e (pos + n.textLen) underSpan rest)
end

/-- `applyFormat` on a single block over character range `[s, e)`. -/
def applyFormatB (fm : Fmt) (s e : Nat) (f : DForest) : DForest :=
  updateF (shouldRemoveB fm s e f) fm s e 0 false (breakF [] s e 0 f)

mutual
/-- Well-formed block content: no empty text node, no span with no child. -/
def wfN : DNode → Bool
  | .text s => !s.isEmpty
  | .span _ kids =>
    (match kids with
     | .nil => false
     | .cons _ _ => true) && wfF kids
def wfF : DForest → Bool
  | .nil => true
  | .cons n rest => wfN n && wfF rest
end

/-- Two sibling nodes representing runs with the same format set: two text
nodes (both plain runs) or two spans with set-equal formats. -/
def sameRunFmts : DNode → DNode → Bool
  | .text _, .text _ => true
  | .span f _, .span g _ =>
    decide (setToSorted (f.contains ·) = setToSorted (g.contains ·))
  | _, _ => false

/-- No two adjacent sibling runs with an identical format set. -/
def noAdjacentSame : DForest → Bool
  | .nil => true
  | .cons _ .nil => true
  | .cons a (.cons b rest) => !sameRunFmts a b && noAdjacentSame (.cons b rest)

/-! ## Persistence (`src/storage/local.ts`, `src/models/document.ts`) -/

inductive BlockType where
  | paragraph | heading | list
deriving DecidableEq, Repr

inductive Alignment where
  | left | center | right | justify
deriving DecidableEq, Repr

structure BlockMetadata where
  alignment : Option Alignment
  level : Option Nat
  styles : Option (List String)
deriving DecidableEq, Repr

structure StoredBlock where
  id : String
  type : BlockType
  content : String
  metadata : Option BlockMetadata
deriving DecidableEq, Repr

structure DocumentPage where
  number : Nat
  blocks : List StoredBlock
deriving DecidableEq, Repr

structure StoredDocument where
  id : String
  title : String
  pages : List DocumentPage
  createdAt : Nat
  updatedAt : Nat
deriving DecidableEq, Repr

/-- `db.put('documents', doc)`: upsert keyed by `id`. -/
def putDocument (d : StoredDocument) (st : List StoredDocument) :
    List StoredDocument :=
  if st.any (fun x => x.id == d.id) then
    st.map (fun x => if x.id == d.id then d else x)
  else st ++ [d]

/-- `saveDocument`: the source first assigns `doc.updatedAt = Date.now()`,
mutating the caller's object in place, then writes the document.  The first
component is the caller's document as it stands after the call. -/
def saveDocument (now : Nat) (doc : StoredDocument) (st : List StoredDocument) :
    StoredDocument × List StoredDocument :=
  let doc' := { doc with updatedAt := now }
  (doc', putDocument doc' st)

/-- `getDocument`. -/
def getDocument (docId : String) (st : List StoredDocument) :
    Option StoredDocument :=
  st.find? (fun x => x.id == docId)

/-! ## Page-break insertion (`handlePageBreak`) -/

/-- A block as manipulated by `handlePageBreak`: identifier, page-break flag
and plain text content. -/
structure EBlock where
  id : Nat
  isPageBreak : Bool
  content : List Char
deriving DecidableEq, Repr

/-- The characters removed by JavaScript `String.prototype.trim`. -/
def jsWhitespace (c : Char) : Bool :=
  c = ' ' || c = '\t' || c = '\n' || c = '\r' ||
    c.val = 11 || c.val = 12 || c.val = 160 || c.val = 65279

def jsTrim (s : List Char) : List Char :=
  ((s.dropWhile jsWhitespace).reverse.dropWhile jsWhitespace).reverse

/-- Insert at index `k` (DOM `insertBefore` of the `nextSibling`; clamps to
append when there is no next sibling). -/
def insAt {α : Type} (k : Nat) (x : α) (l : List α) : List α :=
  l.take k ++ [x] ++ l.drop k

/-- `handlePageBreak` on the page holding the cursor: the block at `bi` keeps
the content before the cursor offset `k`, a page-break sentinel is inserted
right after it, and a new paragraph block holding the (untrimmed) suffix is
inserted after the sentinel only when the suffix trims to something
non-empty. -/
def handlePageBreak (page : List EBlock) (bi k pbId newId : Nat) :
    List EBlock :=
  match page.get? bi with
  | none => page
  | some b =>
    let after := b.content.drop k
    let withSplit := page.set bi { b with content := b.content.take k }
    let withPb := insAt (bi + 1) (EBlock.mk pbId true []) withSplit
    if (jsTrim after).isEmpty then withPb
    else insAt (bi + 2) (EBlock.mk newId false after) withPb

/-! ## Spec-facing predicates and fixtures -/

/-- Whether every page break of a page sits at its very end (no non-final
page break). -/
def pbOnlyFinal : List Block → Bool
  | [] => true
  | [_] => true
  | b :: rest => !b.isPageBreak && pbOnlyFinal rest

/-- The per-page condition the flow pass actually restores: the non-break
content fits the budget, or the page holds at most one non-break block (a
single oversized block cannot be split). -/
def pageOk (p : Page) : Prop :=
  nonPbSum p ≤ getPageContentMaxHeight ∨ nonPbCount p ≤ 1

instance (p : Page) : Decidable (pageOk p) := by
  unfold pageOk; infer_instance

/-- The split-point description of the specification, relative to a running
height `acc` carried over the blocks already scanned: position `k` is a
split candidate when the heights of blocks `0..k` together exceed the
budget, or when `k` sits immediately after a page break that is not the
page's last element. -/
def relSpec (acc : Nat) (l : List Block) (k : Nat) : Bool :=
  decide (getPageContentMaxHeight < acc + realPageHeight (l.take (k + 1))) ||
    (decide (1 ≤ k) && ((l.get? (k - 1)).any (·.isPageBreak)) && decide (k < l.length))

/-- The specification's split-point condition for a whole page. -/
def splitPointSpec (p : Page) (k : Nat) : Bool :=
  relSpec 0 p k

/-- Fixture: plain text block `hello`. -/
def helloF : DForest :=
  .cons (.text ['h', 'e', 'l', 'l', 'o']) .nil

/-- Fixture: the canonical one-run italic block `hello`. -/
def italHelloF : DForest :=
  .cons (.span [.italic] (.cons (.text ['h', 'e', 'l', 'l', 'o']) .nil)) .nil

/-! ## Flow-engine lemmas -/

theorem nonPbSum_cons (b : Block) (l : Page) :
    nonPbSum (b :: l) = (if b.isPageBreak then 0 else b.height) + nonPbSum l := by
  by_cases hb : b.isPageBreak <;> simp [nonPbSum, List.filter_cons, hb]

theorem nonPbCount_cons (b : Block) (l : Page) :
    nonPbCount (b :: l) = (if b.isPageBreak then 0 else 1) + nonPbCount l := by
  by_cases hb : b.isPageBreak <;>
    simp [nonPbCount, List.filter_cons, hb, Nat.add_comm]

theorem nonPbSum_append (l₁ l₂ : Page) :
    nonPbSum (l₁ ++ l₂) = nonPbSum l₁ + nonPbSum l₂ := by
  simp [nonPbSum, List.filter_append]

theorem nonPbCount_append (l₁ l₂ : Page) :
    nonPbCount (l₁ ++ l₂) = nonPbCount l₁ + nonPbCount l₂ := by
  simp [nonPbCount, List.filter_append]

theorem realPageHeight_cons (b : Block) (l : Page) :
    realPageHeight (b :: l) = measuredHeight b + realPageHeight l := by
  simp [realPageHeight]

/-- The real height of a page is exactly the sum of the heights of its
non-break blocks, because page breaks measure zero. -/
theorem realPageHeight_eq_nonPbSum (p : Page) : realPageHeight p = nonPbSum p := by
  induction p with
  | nil => rfl
  | cons b l ih =>
    rw [realPageHeight_cons, nonPbSum_cons, ih, measuredHeight]

theorem nonPbCount_zero_sum {l : Page} (h : nonPbCount l = 0) : nonPbSum l = 0 := by
  unfold nonPbCount at h
  unfold nonPbSum
  rw [List.length_eq_zero] at h
  simp [h]

theorem calcH_cons (b c : Block) (rest : Page) :
    calculatePageBlocksHeight (b :: c :: rest)
      = (if b.isPageBreak then getPageContentMaxHeight + 1000 else measuredHeight b)
        + calculatePageBlocksHeight (c :: rest) := rfl

/-- The non-break content of a page is bounded by what
`calculatePageBlocksHeight` reports. -/
theorem nonPbSum_le_calc (p : Page) :
    nonPbSum p ≤ calculatePageBlocksHeight p := by
  induction p with
  | nil => simp [nonPbSum]
  | cons b l ih =>
    cases l with
    | nil =>
      by_cases hb : b.isPageBreak <;>
        simp [nonPbSum_cons, nonPbSum, calculatePageBlocksHeight, hb, measuredHeight]
    | cons c rest =>
      rw [nonPbSum_cons, calcH_cons]
      apply Nat.add_le_add _ ih
      by_cases hb : b.isPageBreak <;> simp [hb, measuredHeight]

/-- When every page break is final, `calculatePageBlocksHeight` is the real
page height. -/
theorem calc_eq_real_of_pbOnlyFinal {p : Page} (h : pbOnlyFinal p = true) :
    calculatePageBlocksHeight p = realPageHeight p := by
  induction p with
  | nil => rfl
  | cons b l ih =>
    cases l with
    | nil =>
      by_cases hb : b.isPageBreak <;>
        simp [calculatePageBlocksHeight, realPageHeight, measuredHeight, hb]
    | cons c rest =>
      have hb : b.isPageBreak = false := by
        by_contra hb'
        simp [pbOnlyFinal, eq_true_of_ne_false hb'] at h
      have hrest : pbOnlyFinal (c :: rest) = true := by
        simp [pbOnlyFinal, hb] at h
        exact h
      rw [calcH_cons, ih hrest, hb]
      simp [realPageHeight_cons]

theorem findSplit_some_lt {l : List Block} :
    ∀ {acc k : Nat}, findSplit acc l = some k → k < l.length := by
  induction l with
  | nil => intro acc k h; simp [findSplit] at h
  | cons b rest ih =>
    intro acc k h
    by_cases hb : b.isPageBreak
    · rw [findSplit, if_pos hb] at h
      by_cases hr : rest.isEmpty
      · rw [if_pos hr] at h; exact absurd h (by simp)
      · rw [if_neg hr] at h
        have : k = 1 := by simpa using h.symm
        subst this
        have : rest ≠ [] := by simpa [List.isEmpty_iff] using hr
        have : 0 < rest.length := List.length_pos.mpr this
        simpa using Nat.succ_lt_succ this
    · rw [findSplit, if_neg hb] at h
      by_cases hx : acc + b.height > getPageContentMaxHeight
      · rw [if_pos hx] at h
        have : k = 0 := by simpa using h.symm
        subst this; simp
      · rw [if_neg hx] at h
        rcases Option.map_eq_some'.mp h with ⟨k', hk', rfl⟩
        simpa using Nat.succ_lt_succ (ih hk')

/-- If the split scan finds nothing, every page break is final and the whole
page (on top of the running total) fits the budget. -/
theorem findSplit_none {l : List Block} :
    ∀ {acc : Nat}, acc ≤ getPageContentMaxHeight → findSplit acc l = none →
      pbOnlyFinal l = true ∧ acc + realPageHeight l ≤ getPageContentMaxHeight := by
  induction l with
  | nil => intro acc hacc _; simpa [realPageHeight, pbOnlyFinal]
  | cons b rest ih =>
    intro acc hacc h
    by_cases hb : b.isPageBreak
    · rw [findSplit, if_pos hb] at h
      by_cases hr : rest.isEmpty
      · have : rest = [] := by simpa [List.isEmpty_iff] using hr
        subst this
        refine ⟨rfl, ?_⟩
        simpa [realPageHeight, measuredHeight, hb] using hacc
      · rw [if_neg hr] at h; exact absurd h (by simp)
    · rw [findSplit, if_neg hb] at h
      by_cases hx : acc + b.height > getPageContentMaxHeight
      · rw [if_pos hx] at h; exact absurd h (by simp)
      · rw [if_neg hx] at h
        have hx' : acc + b.height ≤ getPageContentMaxHeight := Nat.le_of_not_lt hx
        have h' : findSplit (acc + b.height) rest = none := by
          cases hres : findSplit (acc + b.height) rest with
          | none => rfl
          | some k => rw [hres] at h; exact absurd h (by simp)
        rcases ih hx' h' with ⟨h1, h2⟩
        constructor
        · cases rest with
          | nil => rfl
          | cons c r => simp [pbOnlyFinal, hb]; exact h1
        · rw [realPageHeight_cons, measuredHeight, if_neg hb]
          omega

/-- On an over-budget page with at least two non-break blocks the scan
always produces an in-range split index, so the move fires. -/
theorem processPage_some (p next : Page)
    (h1 : getPageContentMaxHeight < calculatePageBlocksHeight p)
    (h2 : 1 < nonPbCount p) :
    ∃ k, findSplitIndex p = some k ∧ k < p.length ∧
      processPage p next = some (p.take k, moveBlocksToNextPage (p.drop k) next) := by
  have hsplit : findSplitIndex p ≠ none := by
    intro hnone
    rcases findSplit_none (Nat.zero_le _) hnone with ⟨hfin, hle⟩
    rw [calc_eq_real_of_pbOnlyFinal hfin] at h1
    omega
  rcases Option.ne_none_iff_exists'.mp hsplit with ⟨k, hk⟩
  have hlt : k < p.length := findSplit_some_lt hk
  refine ⟨k, hk, hlt, ?_⟩
  rw [processPage, if_pos ⟨h1, h2⟩, hk]
  simp [hlt]

theorem processPage_none (p next : Page)
    (h : ¬(getPageContentMaxHeight < calculatePageBlocksHeight p ∧ 1 < nonPbCount p)) :
    processPage p next = none := by
  rw [processPage, if_neg h]

theorem processPage_none_cond {p next : Page} (h : processPage p next = none) :
    calculatePageBlocksHeight p ≤ getPageContentMaxHeight ∨ nonPbCount p ≤ 1 := by
  by_contra hc
  push_neg at hc
  rcases processPage_some p next hc.1 hc.2 with ⟨k, _, _, hsome⟩
  rw [h] at hsome
  exact absurd hsome (by simp)

/-- A full forward pass makes no move exactly when every page is within
budget or holds at most one non-break block. -/
theorem forwardStep_none_iff (d : Doc) :
    forwardStep d = none ↔
      ∀ p ∈ d, calculatePageBlocksHeight p ≤ getPageContentMaxHeight ∨ nonPbCount p ≤ 1 := by
  induction d with
  | nil => simp [forwardStep]
  | cons p rest ih =>
    cases rest with
    | nil =>
      constructor
      · intro h q hq
        rw [List.mem_singleton] at hq
        subst hq
        rw [forwardStep] at h
        cases hpp : processPage q [] with
        | none => exact processPage_none_cond hpp
        | some pr => rw [hpp] at h; exact absurd h (by simp)
      · intro h
        rw [forwardStep]
        have := h p (by simp)
        rw [processPage_none p [] (by omega)]
    | cons q rest' =>
      constructor
      · intro h r hr
        rw [forwardStep] at h
        cases hpp : processPage p q with
        | some pr => rw [hpp] at h; exact absurd h (by simp)
        | none =>
          rw [hpp] at h
          have htail : forwardStep (q :: rest') = none := by
            cases hts : forwardStep (q :: rest') with
            | none => rfl
            | some d' => rw [hts] at h; exact absurd h (by simp)
          rcases List.mem_cons.mp hr with hr | hr
          · subst hr; exact processPage_none_cond hpp
          · exact (ih.mp htail) r hr
      · intro h
        rw [forwardStep]
        have hp := h p (by simp)
        rw [processPage_none p q (by omega)]
        have htail : forwardStep (q :: rest') = none := by
          apply ih.mpr
          intro r hr
          exact h r (List.mem_cons_of_mem _ hr)
        rw [htail]
        rfl

/-- The forward loop reports completion only at a fixpoint of the pass. -/
theorem handleForwardOverflow_fix :
    ∀ {fuel : Nat} {d d' : Doc}, handleForwardOverflow fuel d = (d', true) →
      forwardStep d' = none := by
  intro fuel
  induction fuel with
  | zero => intro d d' h; simp [handleForwardOverflow] at h
  | succ n ih =>
    intro d d' h
    rw [handleForwardOverflow] at h
    cases hs : forwardStep d with
    | none =>
      rw [hs] at h
      have hd : d = d' := congrArg Prod.fst h
      subst hd
      exact hs
    | some d₁ =>
      rw [hs] at h
      exact ih h

theorem pullCount_cons_pb {b : Block} (hb : b.isPageBreak = true)
    (curH : Nat) (enc : Bool) (rest : Page) :
    pullCount curH enc (b :: rest) = 1 + pullCount curH true rest := by
  simp [pullCount, hb]

theorem pullCount_cons_enc {b : Block} (hb : b.isPageBreak = false)
    (curH : Nat) (rest : Page) :
    pullCount curH true (b :: rest) = 0 := by
  have hcond : ¬(curH + (getPageContentMaxHeight + 1000) ≤ getPageContentMaxHeight) := by
    unfold getPageContentMaxHeight; omega
  simp [pullCount, hb, hcond]

theorem pullCount_cons_fit {b : Block} (hb : b.isPageBreak = false)
    {curH : Nat} (hf : curH + b.height ≤ getPageContentMaxHeight) (rest : Page) :
    pullCount curH false (b :: rest) = 1 + pullCount (curH + b.height) false rest := by
  simp [pullCount, hb, hf]

theorem pullCount_cons_nofit {b : Block} (hb : b.isPageBreak = false)
    {curH : Nat} (hf : ¬(curH + b.height ≤ getPageContentMaxHeight)) (rest : Page) :
    pullCount curH false (b :: rest) = 0 := by
  simp [pullCount, hb, hf]

/-- After the scan has met a page break, only further page breaks are ever
taken. -/
theorem pullCount_true_count (l : Page) :
    ∀ curH : Nat, nonPbCount (l.take (pullCount curH true l)) = 0 := by
  induction l with
  | nil => intro curH; simp [pullCount, nonPbCount]
  | cons b rest ih =>
    intro curH
    cases hb : b.isPageBreak
    · rw [pullCount_cons_enc hb]
      simp [nonPbCount]
    · rw [pullCount_cons_pb hb, List.take_cons (by omega), nonPbCount_cons, hb]
      simpa using ih curH

/-- If the scan pulls any non-break block at all, the pulled prefix together
with the current height fits the budget. -/
theorem pullCount_fits (l : Page) :
    ∀ curH : Nat,
      nonPbCount (l.take (pullCount curH false l)) = 0 ∨
        curH + nonPbSum (l.take (pullCount curH false l)) ≤ getPageContentMaxHeight := by
  induction l with
  | nil => intro curH; left; simp [pullCount, nonPbCount]
  | cons b rest ih =>
    intro curH
    cases hb : b.isPageBreak
    · by_cases hf : curH + b.height ≤ getPageContentMaxHeight
      · rw [pullCount_cons_fit hb hf, List.take_cons (by omega)]
        simp only [Nat.add_sub_cancel_left, Nat.add_sub_cancel]
        rcases ih (curH + b.height) with hc | hs
        · right
          rw [nonPbSum_cons, hb, if_neg (by simp), nonPbCount_zero_sum hc]
          omega
        · right
          rw [nonPbSum_cons, hb, if_neg (by simp)]
          omega
      · rw [pullCount_cons_nofit hb hf]
        left
        simp [nonPbCount]
    · left
      rw [pullCount_cons_pb hb, List.take_cons (by omega), nonPbCount_cons, hb]
      simpa using pullCount_true_count rest curH

theorem pageOk_append_pull (cur next : Page) (h : pageOk cur) :
    pageOk (cur ++ next.take (pullCount (realPageHeight cur) false next)) := by
  rw [realPageHeight_eq_nonPbSum]
  rcases pullCount_fits next (nonPbSum cur) with hc | hs
  · rcases h with h | h
    · left
      rw [nonPbSum_append, nonPbCount_zero_sum hc]
      simpa using h
    · right
      rw [nonPbCount_append, hc]
      simpa using h
  · left
    rw [nonPbSum_append]
    exact hs

theorem pageOk_drop (l : Page) (m : Nat) (h : pageOk l) : pageOk (l.drop m) := by
  have hsplit : l = l.take m ++ l.drop m := (List.take_append_drop m l).symm
  rcases h with h | h
  · left
    rw [hsplit, nonPbSum_append] at h
    omega
  · right
    rw [hsplit, nonPbCount_append] at h
    omega

theorem pageOk_take {l : Page} (m : Nat) (h : pageOk l) : pageOk (l.take m) := by
  have hsplit : l = l.take m ++ l.drop m := (List.take_append_drop m l).symm
  rcases h with h | h
  · left
    rw [hsplit, nonPbSum_append] at h
    omega
  · right
    rw [hsplit, nonPbCount_append] at h
    omega

/-- The pair loop preserves the per-page condition on every page. -/
theorem revGo_pageOk :
    ∀ (rest : Doc) (cur : Page), pageOk cur → (∀ p ∈ rest, pageOk p) →
      ∀ p ∈ revGo cur rest, pageOk p := by
  intro rest
  induction rest with
  | nil =>
    intro cur hcur _ p hp
    rw [revGo, List.mem_singleton] at hp
    exact hp ▸ hcur
  | cons next rest ih =>
    intro cur hcur hrest p hp
    rw [revGo] at hp
    by_cases hempty : next.isEmpty
    · rw [if_pos hempty] at hp
      rcases List.mem_cons.mp hp with hp | hp
      · exact hp ▸ hcur
      · exact ih next (hrest next (by simp))
          (fun q hq => hrest q (List.mem_cons_of_mem _ hq)) p hp
    · rw [if_neg hempty] at hp
      by_cases hpb : hasPageBreak cur
      · rw [if_pos hpb] at hp
        rcases List.mem_cons.mp hp with hp | hp
        · exact hp ▸ hcur
        · exact ih next (hrest next (by simp))
            (fun q hq => hrest q (List.mem_cons_of_mem _ hq)) p hp
      · rw [if_neg hpb] at hp
        rcases List.mem_cons.mp hp with hp | hp
        · subst hp
          exact pageOk_append_pull cur next hcur
        · exact ih (next.drop _) (pageOk_drop next _ (hrest next (by simp)))
            (fun q hq => hrest q (List.mem_cons_of_mem _ hq)) p hp

/-- Reverse compaction preserves the per-page condition on every page. -/
theorem reverseAux_pageOk :
    ∀ d : Doc, (∀ p ∈ d, pageOk p) → ∀ p ∈ reverseAux d, pageOk p := by
  intro d h p hp
  cases d with
  | nil => simp [reverseAux] at hp
  | cons q rest =>
    rw [reverseAux] at hp
    exact revGo_pageOk rest q (h q (by simp))
      (fun x hx => h x (List.mem_cons_of_mem _ hx)) p hp

theorem pruneAux_cons (q : Page) (rest : Doc) (k : Nat) :
    pruneAux (q :: rest) k =
      if nonPbCount q = 0 ∧ 1 < k + 1 + (pruneAux rest (k + 1)).length
      then pruneAux rest (k + 1) else q :: pruneAux rest (k + 1) := by
  simp [pruneAux]

/-- Pruning only ever removes pages. -/
theorem pruneAux_mem :
    ∀ (d : Doc) (k : Nat) (p : Page), p ∈ pruneAux d k → p ∈ d := by
  intro d
  induction d with
  | nil => intro k p hp; simp [pruneAux] at hp
  | cons q rest ih =>
    intro k p hp
    rw [pruneAux_cons] at hp
    by_cases hc : nonPbCount q = 0 ∧ 1 < k + 1 + (pruneAux rest (k + 1)).length
    · rw [if_pos hc] at hp
      exact List.mem_cons_of_mem _ (ih (k + 1) p hp)
    · rw [if_neg hc] at hp
      rcases List.mem_cons.mp hp with hp | hp
      · simp [hp]
      · exact List.mem_cons_of_mem _ (ih (k + 1) p hp)

/-! ## Claim C1: budget invariant after a completed flow pass -/

/-- C1 (counterexample): the claim "after every completed flow pass every
page satisfies non-break height sum ≤ 931" is false.  A page holding blocks
of heights 10 and 1000 completes a full `handlePageOverflow` pass (fuel 10
is ample) and leaves a page whose single block alone exceeds the budget. -/
theorem claim_C1_counterexample :
    handlePageOverflow 10 0 [[Block.mk 0 false 10, Block.mk 1 false 1000]]
        = some [[Block.mk 0 false 10], [Block.mk 1 false 1000]]
      ∧ getPageContentMaxHeight < nonPbSum [Block.mk 1 false 1000] := by
  constructor
  · rfl
  · decide

/-- C1 (amended): after every completed `handlePageOverflow` pass, every
page either satisfies the budget (sum of non-page-break block heights ≤ 931)
or holds at most one non-page-break block — a single oversized block cannot
be split, so only such pages may stay over budget. -/
theorem claim_C1_amended (fuel s : Nat) (d r : Doc)
    (h : handlePageOverflow fuel s d = some r) :
    ∀ p ∈ r, nonPbSum p ≤ getPageContentMaxHeight ∨ nonPbCount p ≤ 1 := by
  intro p hp
  rw [handlePageOverflow] at h
  rcases hf : handleForwardOverflow fuel d with ⟨d', done⟩
  rw [hf] at h
  cases done with
  | false => exact absurd h (by simp)
  | true =>
    have hr : removeEmptyPages (handleReverseCompaction s d') = r := by
      simpa using h
    subst hr
    have hfix : forwardStep d' = none := handleForwardOverflow_fix hf
    have hOk : ∀ q ∈ d', pageOk q := by
      intro q hq
      rcases (forwardStep_none_iff d').mp hfix q hq with h1 | h1
      · exact Or.inl (Nat.le_trans (nonPbSum_le_calc q) h1)
      · exact Or.inr h1
    have hp' : p ∈ handleReverseCompaction s d' :=
      pruneAux_mem _ 0 p hp
    rw [handleReverseCompaction] at hp'
    rcases List.mem_append.mp hp' with hp' | hp'
    · exact hOk p ((List.take_sublist s d').subset hp')
    · refine reverseAux_pageOk (d'.drop s) ?_ p hp'
      intro q hq
      exact hOk q ((List.drop_sublist s d').subset hq)

/-- C1 (witness). -/
theorem claim_C1_witness :
    handlePageOverflow 3 0 [[Block.mk 0 false 10]] = some [[Block.mk 0 false 10]]
      ∧ (nonPbSum [Block.mk 0 false 10] ≤ getPageContentMaxHeight
          ∨ nonPbCount [Block.mk 0 false 10] ≤ 1) :=
  ⟨by rfl,
    claim_C1_amended 3 0 [[Block.mk 0 false 10]] [[Block.mk 0 false 10]] (by rfl)
      [Block.mk 0 false 10] (by simp)⟩

/-! ## Claim C2: minimum occupancy of the source page -/

/-- C2 (code bug evaluated): on a page whose first block alone exceeds the
budget (heights 1000 and 10), the guard `nonPageBreakBlocks.length > 1`
passes, the split scan returns index 0, and the move empties the source page
completely — contradicting the claim (and the source's own comment "keep at
least one block per page"). -/
theorem claim_C2_failing :
    forwardStep [[Block.mk 0 false 1000, Block.mk 1 false 10]]
        = some [[], [Block.mk 0 false 1000, Block.mk 1 false 10]]
      ∧ 1 < nonPbCount [Block.mk 0 false 1000, Block.mk 1 false 10]
      ∧ nonPbCount ([] : Page) = 0 := by
  refine ⟨by rfl, by decide, by decide⟩

/-! ## Claim C8: idempotence of the flow pass -/

/-- C8 (counterexample): the full flow pass is not idempotent.  Starting
from pages `[100] / [] / [100]`, the first completed pass yields
`[100] / [100]` (the empty page absorbed the trailing block and the emptied
page was pruned), and a second pass with no intervening edit compacts
further to a single page `[100, 100]`. -/
theorem claim_C8_counterexample :
    handlePageOverflow 5 0 [[Block.mk 0 false 100], [], [Block.mk 1 false 100]]
        = some [[Block.mk 0 false 100], [Block.mk 1 false 100]]
      ∧ handlePageOverflow 5 0 [[Block.mk 0 false 100], [Block.mk 1 false 100]]
          = some [[Block.mk 0 false 100, Block.mk 1 false 100]]
      ∧ ([[Block.mk 0 false 100], [Block.mk 1 false 100]] : Doc)
          ≠ [[Block.mk 0 false 100, Block.mk 1 false 100]] := by
  refine ⟨by rfl, by rfl, by decide⟩

/-- C8 (amended): the forward-overflow phase alone is idempotent — once the
forward loop has completed (reached a pass with no move), running it again
with any positive fuel returns the same tree immediately. -/
theorem claim_C8_amended (fuel fuel' : Nat) (d d' : Doc)
    (h : handleForwardOverflow fuel d = (d', true)) (h' : 0 < fuel') :
    handleForwardOverflow fuel' d' = (d', true) := by
  have hfix : forwardStep d' = none := handleForwardOverflow_fix h
  cases fuel' with
  | zero => omega
  | succ n => rw [handleForwardOverflow, hfix]

/-- C8 (witness). -/
theorem claim_C8_witness :
    handleForwardOverflow 1 [[Block.mk 0 false 100]] = ([[Block.mk 0 false 100]], true)
      ∧ 0 < 2
      ∧ handleForwardOverflow 2 [[Block.mk 0 false 100]]
          = ([[Block.mk 0 false 100]], true) :=
  ⟨by rfl, by decide,
    claim_C8_amended 1 2 [[Block.mk 0 false 100]] [[Block.mk 0 false 100]]
      (by rfl) (by decide)⟩

/-! ## Claim C3: the split point matches the specification -/

theorem relSpec_cons_nonPb {b : Block} (hb : b.isPageBreak = false)
    (acc : Nat) (rest : List Block) (j : Nat) :
    relSpec acc (b :: rest) (j + 1) = relSpec (acc + b.height) rest j := by
  cases j with
  | zero =>
    simp [relSpec, List.take_succ_cons, realPageHeight_cons, measuredHeight, hb,
      Nat.add_assoc]
  | succ j' =>
    simp [relSpec, List.take_succ_cons, realPageHeight_cons, measuredHeight, hb,
      Nat.add_assoc, Nat.succ_lt_succ_iff]

/-- Soundness and minimality of the split scan: the index it returns is the
first position satisfying the specification's split condition (relative to
the running total `acc`). -/
theorem findSplit_some_spec {l : List Block} :
    ∀ {acc k : Nat}, acc ≤ getPageContentMaxHeight → findSplit acc l = some k →
      relSpec acc l k = true ∧ ∀ j < k, relSpec acc l j = false := by
  induction l with
  | nil => intro acc k _ h; simp [findSplit] at h
  | cons b rest ih =>
    intro acc k hacc h
    cases hb : b.isPageBreak
    · rw [findSplit] at h
      rw [hb] at h
      simp only [Bool.false_eq_true, if_false] at h
      by_cases hx : acc + b.height > getPageContentMaxHeight
      · rw [if_pos hx] at h
        have hk : k = 0 := by simpa using h.symm
        subst hk
        refine ⟨?_, fun j hj => absurd hj (by omega)⟩
        simp [relSpec, realPageHeight_cons, measuredHeight, hb, realPageHeight]
        omega
      · rw [if_neg hx] at h
        rcases Option.map_eq_some'.mp h with ⟨k', hk', rfl⟩
        have hacc' : acc + b.height ≤ getPageContentMaxHeight := Nat.le_of_not_lt hx
        rcases ih hacc' hk' with ⟨ha, hmin⟩
        refine ⟨by rw [relSpec_cons_nonPb hb]; exact ha, ?_⟩
        intro j hj
        cases j with
        | zero =>
          simp [relSpec, realPageHeight_cons, measuredHeight, hb, realPageHeight]
          omega
        | succ j' =>
          rw [relSpec_cons_nonPb hb]
          exact hmin j' (by omega)
    · rw [findSplit] at h
      rw [hb] at h
      simp only [if_true] at h
      by_cases hr : rest.isEmpty
      · rw [if_pos hr] at h; exact absurd h (by simp)
      · rw [if_neg hr] at h
        have hk : k = 1 := by simpa using h.symm
        subst hk
        have hlen : 0 < rest.length := by
          cases rest with
          | nil => simp at hr
          | cons c r => simp
        constructor
        · simp [relSpec, hb]
          omega
        · intro j hj
          have hj0 : j = 0 := by omega
          subst hj0
          simp [relSpec, realPageHeight_cons, measuredHeight, hb, realPageHeight]
          omega

/-- When the scan finds nothing, no position satisfies the specification's
split condition. -/
theorem findSplit_none_spec {l : List Block} :
    ∀ {acc : Nat}, acc ≤ getPageContentMaxHeight → findSplit acc l = none →
      ∀ k, relSpec acc l k = false := by
  induction l with
  | nil =>
    intro acc hacc _ k
    simp [relSpec, realPageHeight]
    omega
  | cons b rest ih =>
    intro acc hacc h k
    cases hb : b.isPageBreak
    · rw [findSplit] at h
      rw [hb] at h
      simp only [Bool.false_eq_true, if_false] at h
      by_cases hx : acc + b.height > getPageContentMaxHeight
      · rw [if_pos hx] at h; exact absurd h (by simp)
      · rw [if_neg hx] at h
        have h' : findSplit (acc + b.height) rest = none := by
          cases hres : findSplit (acc + b.height) rest with
          | none => rfl
          | some k' => rw [hres] at h; exact absurd h (by simp)
        have hacc' : acc + b.height ≤ getPageContentMaxHeight := Nat.le_of_not_lt hx
        cases k with
        | zero =>
          simp [relSpec, realPageHeight_cons, measuredHeight, hb, realPageHeight]
          omega
        | succ j =>
          rw [relSpec_cons_nonPb hb]
          exact ih hacc' h' j
    · rw [findSplit] at h
      rw [hb] at h
      simp only [if_true] at h
      by_cases hr : rest.isEmpty
      · have : rest = [] := by simpa [List.isEmpty_iff] using hr
        subst this
        cases k with
        | zero =>
          simp [relSpec, realPageHeight_cons, measuredHeight, hb, realPageHeight]
          omega
        | succ j =>
          simp [relSpec, realPageHeight_cons, measuredHeight, hb, realPageHeight,
            List.take_succ_cons]
          omega
      · rw [if_neg hr] at h; exact absurd h (by simp)

theorem moveBlocksToNextPage_eq (moved next : List Block) :
    moveBlocksToNextPage moved next = moved ++ next := by
  unfold moveBlocksToNextPage
  rw [List.foldl_reverse]
  induction moved with
  | nil => rfl
  | cons b l ih => simp [List.foldr_cons, ih]

/-- C3 (confirmed): on an over-budget page with more than one non-break
block, the chosen split index `k` is the first position satisfying the
specification's split condition (running total exceeds the budget, or the
position directly after a non-final page break), and the engine moves
exactly the run from `k` to the end of the page onto the head of the next
page in order, creating the next page when the page is the last one. -/
theorem claim_C3 (p next : Page) (k : Nat)
    (h1 : getPageContentMaxHeight < calculatePageBlocksHeight p)
    (h2 : 1 < nonPbCount p) (h3 : findSplitIndex p = some k) :
    splitPointSpec p k = true ∧ (∀ j < k, splitPointSpec p j = false)
      ∧ moveBlocksToNextPage (p.drop k) next = p.drop k ++ next
      ∧ processPage p next = some (p.take k, p.drop k ++ next)
      ∧ forwardStep [p] = some [p.take k, p.drop k] := by
  rcases findSplit_some_spec (Nat.zero_le _) h3 with ⟨ha, hmin⟩
  rcases processPage_some p next h1 h2 with ⟨k', hk', hlt, hpp⟩
  have hkk : k' = k := by
    rw [h3] at hk'
    exact (Option.some.inj hk').symm
  subst hkk
  refine ⟨ha, hmin, moveBlocksToNextPage_eq _ _, ?_, ?_⟩
  · rw [hpp, moveBlocksToNextPage_eq]
  · rcases processPage_some p [] h1 h2 with ⟨k₂, hk₂, _, hpp₂⟩
    have hkk₂ : k₂ = k' := by
      rw [h3] at hk₂
      exact (Option.some.inj hk₂).symm
    subst hkk₂
    rw [forwardStep, hpp₂, moveBlocksToNextPage_eq]
    simp

/-- C3 (witness). -/
theorem claim_C3_witness :
    getPageContentMaxHeight
        < calculatePageBlocksHeight [Block.mk 0 false 500, Block.mk 1 false 500]
      ∧ splitPointSpec [Block.mk 0 false 500, Block.mk 1 false 500] 1 = true
      ∧ processPage [Block.mk 0 false 500, Block.mk 1 false 500] []
          = some (List.take 1 [Block.mk 0 false 500, Block.mk 1 false 500],
              List.drop 1 [Block.mk 0 false 500, Block.mk 1 false 500] ++ []) :=
  ⟨by decide,
    (claim_C3 [Block.mk 0 false 500, Block.mk 1 false 500] [] 1 (by decide)
        (by decide) (by rfl)).1,
    (claim_C3 [Block.mk 0 false 500, Block.mk 1 false 500] [] 1 (by decide)
        (by decide) (by rfl)).2.2.2.1⟩

/-! ## Claim C6: page-break authority in reverse compaction -/

/-- Once the scan runs in `encounteredPageBreak` mode, it never reaches past
a non-page-break block. -/
theorem pullCount_true_le {l : Page} :
    ∀ {j : Nat} {b : Block}, l.get? j = some b → b.isPageBreak = false →
      ∀ curH : Nat, pullCount curH true l ≤ j := by
  induction l with
  | nil => intro j b h _ _; simp at h
  | cons x rest ih =>
    intro j b h hb curH
    cases hx : x.isPageBreak
    · rw [pullCount_cons_enc hx]
      omega
    · rw [pullCount_cons_pb hx]
      cases j with
      | zero =>
        rw [List.get?_cons_zero] at h
        have hxb : x = b := Option.some.inj h
        rw [hxb, hb] at hx
        exact absurd hx (by simp)
      | succ j' =>
        rw [List.get?_cons_succ] at h
        have := ih h hb curH
        omega

/-- A non-page-break block that sits after a page break in the scanned page
is never part of the pulled prefix. -/
theorem pullCount_no_cross {next : Page} :
    ∀ {i j : Nat} {bi bj : Block} (curH : Nat), i < j →
      next.get? i = some bi → bi.isPageBreak = true →
      next.get? j = some bj → bj.isPageBreak = false →
      pullCount curH false next ≤ j := by
  induction next with
  | nil => intro i j bi bj curH _ hi _ _ _; simp at hi
  | cons x rest ih =>
    intro i j bi bj curH hij hi hbi hj hbj
    cases j with
    | zero => omega
    | succ j' =>
      rw [List.get?_cons_succ] at hj
      cases hx : x.isPageBreak
      · cases i with
        | zero =>
          rw [List.get?_cons_zero] at hi
          have hxb : x = bi := Option.some.inj hi
          rw [hxb, hbi] at hx
          exact absurd hx (by simp)
        | succ i' =>
          rw [List.get?_cons_succ] at hi
          by_cases hf : curH + x.height ≤ getPageContentMaxHeight
          · rw [pullCount_cons_fit hx hf]
            have := ih (curH + x.height) (show i' < j' by omega) hi hbi hj hbj
            omega
          · rw [pullCount_cons_nofit hx hf]
            omega
      · rw [pullCount_cons_pb hx]
        have := pullCount_true_le hj hbj curH
        omega

/-- C6 (confirmed): (a) a compaction-site page that contains a page-break
sentinel anywhere is skipped entirely — the pair step leaves it untouched;
(b) during the scan of the next page's leading blocks, a non-page-break
block that sits after a page break (at any greater index) is never inside
the pulled prefix, whatever room is free on the earlier page. -/
theorem claim_C6 :
    (∀ (cur next : Page) (rest : Doc), hasPageBreak cur = true →
        revGo cur (next :: rest) = cur :: revGo next rest)
    ∧ (∀ (next : Page) (curH i j : Nat) (bi bj : Block), i < j →
        next.get? i = some bi → bi.isPageBreak = true →
        next.get? j = some bj → bj.isPageBreak = false →
        pullCount curH false next ≤ j) := by
  constructor
  · intro cur next rest hpb
    by_cases hempty : next.isEmpty
    · rw [revGo, if_pos hempty]
    · rw [revGo, if_neg hempty, if_pos hpb]
  · intro next curH i j bi bj hij hi hbi hj hbj
    exact pullCount_no_cross curH hij hi hbi hj hbj

/-- C6 (witness). -/
theorem claim_C6_witness :
    revGo [Block.mk 0 true 0] [[Block.mk 1 false 10]]
        = [Block.mk 0 true 0] :: revGo [Block.mk 1 false 10] []
      ∧ pullCount 0 false [Block.mk 2 true 0, Block.mk 3 false 10] ≤ 1 :=
  ⟨claim_C6.1 [Block.mk 0 true 0] [Block.mk 1 false 10] [] (by decide),
    claim_C6.2 [Block.mk 2 true 0, Block.mk 3 false 10] 0 0 1
      (Block.mk 2 true 0) (Block.mk 3 false 10) (by decide) (by rfl) (by decide)
      (by rfl) (by decide)⟩

/-! ## Claim C7: page pruning -/

/-- With at least one page in front of it, an empty page is always removed:
the backwards loop with a non-zero prefix count reduces to a plain filter. -/
theorem pruneAux_pos (d : Doc) :
    ∀ k, 1 ≤ k → pruneAux d k = d.filter (fun p => decide (0 < nonPbCount p)) := by
  induction d with
  | nil => intro k _; simp [pruneAux]
  | cons q rest ih =>
    intro k hk
    rw [pruneAux_cons, ih (k + 1) (by omega)]
    by_cases hq : nonPbCount q = 0
    · rw [if_pos ⟨hq, by omega⟩]
      simp [List.filter_cons, hq]
    · rw [if_neg (by intro hc; exact hq hc.1)]
      simp [List.filter_cons, Nat.pos_of_ne_zero hq]

/-- C7 (amended): pruning removes exactly the pages with no non-page-break
block — except that when every page is empty, the first (not the last) page
is the sole survivor; pruning synthesizes no block, so the surviving page
may consist of page-break sentinels only or be entirely empty. -/
theorem claim_C7_amended (d : Doc) :
    ((∃ q ∈ d, 0 < nonPbCount q) →
        removeEmptyPages d = d.filter (fun p => decide (0 < nonPbCount p)))
    ∧ ((∀ q ∈ d, nonPbCount q = 0) → removeEmptyPages d = d.take 1) := by
  cases d with
  | nil => exact ⟨fun _ => rfl, fun _ => rfl⟩
  | cons q rest =>
    have hrest : pruneAux rest 1 = rest.filter (fun p => decide (0 < nonPbCount p)) :=
      pruneAux_pos rest 1 (by omega)
    constructor
    · rintro ⟨r, hr, hrpos⟩
      rw [removeEmptyPages, pruneAux_cons, hrest]
      by_cases hq : nonPbCount q = 0
      · have hrrest : r ∈ rest := by
          rcases List.mem_cons.mp hr with hr | hr
          · rw [hr] at hrpos; omega
          · exact hr
        have hmem : r ∈ rest.filter (fun p => decide (0 < nonPbCount p)) :=
          List.mem_filter.mpr ⟨hrrest, by simpa using hrpos⟩
        have hlen : 0 < (rest.filter (fun p => decide (0 < nonPbCount p))).length :=
          List.length_pos.mpr (by intro hnil; rw [hnil] at hmem; simp at hmem)
        rw [if_pos ⟨hq, by omega⟩]
        simp [List.filter_cons, hq]
      · rw [if_neg (by intro hc; exact hq hc.1)]
        simp [List.filter_cons, Nat.pos_of_ne_zero hq]
    · intro hall
      have hq : nonPbCount q = 0 := hall q (by simp)
      have hfil : rest.filter (fun p => decide (0 < nonPbCount p)) = [] := by
        apply List.filter_eq_nil_iff.mpr
        intro r hr
        have := hall r (List.mem_cons_of_mem _ hr)
        simp [this]
      rw [removeEmptyPages, pruneAux_cons, hrest, hfil]
      rw [if_neg (by simp)]
      simp

/-- C7 (counterexample): two pages each holding only a page-break sentinel.
Pruning keeps the first page and removes the last, contradicting "the last
page always continues to exist"; and the surviving page still holds no
non-break block — no empty paragraph is synthesized by pruning. -/
theorem claim_C7_counterexample :
    removeEmptyPages [[Block.mk 0 true 0], [Block.mk 1 true 0]]
        = [[Block.mk 0 true 0]]
      ∧ ([Block.mk 0 true 0] : Page) ≠ [Block.mk 1 true 0]
      ∧ nonPbCount [Block.mk 0 true 0] = 0 := by
  decide

/-- C7 (witness). -/
theorem claim_C7_witness :
    removeEmptyPages [[Block.mk 0 false 5], ([] : Page)]
        = List.filter (fun p => decide (0 < nonPbCount p))
            [[Block.mk 0 false 5], ([] : Page)] :=
  (claim_C7_amended [[Block.mk 0 false 5], ([] : Page)]).1
    ⟨[Block.mk 0 false 5], by simp, by decide⟩

/-! ## Claim C9: saveDocument and the caller's snapshot -/

theorem getDocument_put (d : StoredDocument) :
    ∀ st : List StoredDocument, getDocument d.id (putDocument d st) = some d := by
  intro st
  induction st with
  | nil => simp [putDocument, getDocument, List.find?]
  | cons x st ih =>
    cases hx : (x.id == d.id)
    · have hxx : ¬(x.id = d.id) := by simpa using hx
      cases hany : st.any (fun y => y.id == d.id)
      · have hput : putDocument d (x :: st) = x :: (st ++ [d]) := by
          simp [putDocument, hx, hany, hxx]
        have hput' : putDocument d st = st ++ [d] := by
          simp [putDocument, hany]
        unfold getDocument at ih ⊢
        rw [hput]
        simp only [List.find?, hx]
        rw [← hput']
        exact ih
      · have hput : putDocument d (x :: st)
            = x :: st.map (fun y => if y.id == d.id then d else y) := by
          simp [putDocument, hx, hany, hxx]
        have hput' : putDocument d st
            = st.map (fun y => if y.id == d.id then d else y) := by
          simp [putDocument, hany]
        unfold getDocument at ih ⊢
        rw [hput]
        simp only [List.find?, hx]
        rw [← hput']
        exact ih
    · have hxx : x.id = d.id := by simpa using hx
      have hput : putDocument d (x :: st)
          = d :: st.map (fun y => if y.id == d.id then d else y) := by
        simp [putDocument, hx, hxx]
      unfold getDocument
      rw [hput]
      simp [List.find?]

/-- C9 (amended): `saveDocument` mutates the caller's document in place —
but in exactly one field: after the call the caller's object has `updatedAt`
set to the current time while `id`, `title`, `pages` and `createdAt` are
unchanged, and the store holds exactly that mutated snapshot. -/
theorem claim_C9_amended (now : Nat) (doc : StoredDocument)
    (st : List StoredDocument) :
    (saveDocument now doc st).1.id = doc.id
      ∧ (saveDocument now doc st).1.title = doc.title
      ∧ (saveDocument now doc st).1.pages = doc.pages
      ∧ (saveDocument now doc st).1.createdAt = doc.createdAt
      ∧ (saveDocument now doc st).1.updatedAt = now
      ∧ getDocument doc.id (saveDocument now doc st).2
          = some (saveDocument now doc st).1 := by
  refine ⟨rfl, rfl, rfl, rfl, rfl, ?_⟩
  exact getDocument_put { doc with updatedAt := now } st

/-- C9 (counterexample): the claim "every field of the caller's Document
(including updatedAt) is unchanged by the call" is false — `saveDocument`
assigns `doc.updatedAt = Date.now()` on the caller's object itself. -/
theorem claim_C9_counterexample :
    (saveDocument 7 (StoredDocument.mk "a" "t" [] 0 3) []).1
        ≠ StoredDocument.mk "a" "t" [] 0 3
      ∧ (saveDocument 7 (StoredDocument.mk "a" "t" [] 0 3) []).1.updatedAt = 7 := by
  decide

/-! ## Claim C10: page break with a whitespace-only suffix -/

/-- C10 (confirmed): when the text after the cursor trims to nothing,
`handlePageBreak` replaces the block by its before-cursor part followed by
the zero-height sentinel and creates no block after the sentinel — the
whitespace suffix is dropped, and the sentinel ends the page when the block
was its last element. -/
theorem claim_C10 :
    ∀ (page : List EBlock) (bi k pbId newId : Nat) (b : EBlock),
      page.get? bi = some b → jsTrim (b.content.drop k) = [] →
      handlePageBreak page bi k pbId newId
        = page.take bi
          ++ [{ b with content := b.content.take k }, EBlock.mk pbId true []]
          ++ page.drop (bi + 1) := by
  intro page bi
  induction bi generalizing page with
  | zero =>
    intro k pbId newId b hb hws
    cases page with
    | nil => simp at hb
    | cons x rest =>
      rw [List.get?_cons_zero] at hb
      have hxb : x = b := Option.some.inj hb
      subst hxb
      rw [handlePageBreak]
      simp only [List.get?_cons_zero]
      rw [hws]
      simp [insAt, List.set]
  | succ n ih =>
    intro k pbId newId b hb hws
    cases page with
    | nil => simp at hb
    | cons x rest =>
      rw [List.get?_cons_succ] at hb
      have hins : ∀ (y : EBlock) (l : List EBlock) (m : Nat) (z : EBlock),
          insAt (m + 1) z (y :: l) = y :: insAt m z l := by
        intro y l m z
        simp [insAt]
      have hrec := ih rest k pbId newId b hb hws
      rw [handlePageBreak, hb] at hrec
      simp only [hws, List.isEmpty_nil, if_true] at hrec
      rw [handlePageBreak, List.get?_cons_succ, hb]
      simp only [hws, List.isEmpty_nil, if_true, List.set_cons_succ]
      rw [hins, hrec]
      simp

/-- C10 (witness). -/
theorem claim_C10_witness :
    handlePageBreak [EBlock.mk 0 false "hello   ".toList] 0 5 7 8
      = List.take 0 [EBlock.mk 0 false "hello   ".toList]
        ++ [{ EBlock.mk 0 false "hello   ".toList with
                content := ("hello   ".toList).take 5 },
            EBlock.mk 7 true []]
        ++ List.drop 1 [EBlock.mk 0 false "hello   ".toList] :=
  claim_C10 [EBlock.mk 0 false "hello   ".toList] 0 5 7 8
    (EBlock.mk 0 false "hello   ".toList) (by rfl) (by decide)

/-! ## Format-model lemmas -/

theorem DForest.append_nil : ∀ a : DForest, a.append .nil = a
  | .nil => rfl
  | .cons n rest => by rw [DForest.append, DForest.append_nil rest]

theorem DForest.append_ne_nil_left {a : DForest} (b : DForest) (h : a ≠ .nil) :
    a.append b ≠ .nil := by
  cases a with
  | nil => exact absurd rfl h
  | cons n rest => rw [DForest.append]; intro hc; cases hc

theorem wfF_append : ∀ a b : DForest, wfF (a.append b) = (wfF a && wfF b)
  | .nil, b => by rw [DForest.append, wfF, Bool.true_and]
  | .cons n rest, b => by
    rw [DForest.append, wfF, wfF, wfF_append rest b, Bool.and_assoc]

theorem textIf_ne_nil {rest : DForest} (s : List Char) (h : rest ≠ .nil) :
    textIf s rest ≠ .nil := by
  unfold textIf
  by_cases hs : s.isEmpty
  · rw [if_pos hs]; exact h
  · rw [if_neg hs]; intro hc; cases hc

theorem charsForest_ne_nil (anc : List Fmt) {cs : List Char} (rest : DForest)
    (h : cs ≠ []) : charsForest anc cs rest ≠ .nil := by
  cases cs with
  | nil => exact absurd rfl h
  | cons c cs' => rw [charsForest, List.foldr_cons]; intro hc; cases hc

theorem wfF_textIf {rest : DForest} (s : List Char) (h : wfF rest = true) :
    wfF (textIf s rest) = true := by
  unfold textIf
  by_cases hs : s.isEmpty
  · rw [if_pos hs]; exact h
  · rw [if_neg hs, wfF, wfN]
    simp only [h, Bool.and_true]
    simpa using hs

theorem wfN_wrapChar (anc : List Fmt) (c : Char) : wfN (wrapChar anc c) = true := by
  unfold wrapChar
  by_cases ha : anc.isEmpty
  · rw [if_pos ha, wfN]; simp
  · rw [if_neg ha, wfN, wfF, wfF, wfN]
    simp

theorem wfF_charsForest (anc : List Fmt) (cs : List Char) (rest : DForest)
    (h : wfF rest = true) : wfF (charsForest anc cs rest) = true := by
  induction cs with
  | nil => rw [charsForest, List.foldr_nil]; exact h
  | cons c cs' ih =>
    rw [charsForest, List.foldr_cons, wfF]
    rw [wfN_wrapChar]
    rw [Bool.true_and]
    exact ih

theorem breakN_ne_nil (anc : List Fmt) (s e pos : Nat) (n : DNode) :
    breakN anc s e pos n ≠ .nil := by
  cases n with
  | text str =>
    rw [breakN]
    by_cases hc : 1 < str.length ∧
        max s pos - pos < min e (pos + str.length) - pos
    · rw [if_pos hc]
      apply textIf_ne_nil
      apply charsForest_ne_nil
      intro hnil
      have hlen := congrArg List.length hnil
      rw [List.length_take, List.length_drop] at hlen
      have h1 : min e (pos + str.length) - pos ≤ str.length := by omega
      simp only [List.length_nil] at hlen
      omega
    · rw [if_neg hc]; intro hc'; cases hc'
  | span f kids =>
    rw [breakN]; intro hc; cases hc

theorem breakF_ne_nil (anc : List Fmt) (s e pos : Nat) {f : DForest}
    (h : f ≠ .nil) : breakF anc s e pos f ≠ .nil := by
  cases f with
  | nil => exact absurd rfl h
  | cons n rest =>
    rw [breakF]
    exact DForest.append_ne_nil_left _ (breakN_ne_nil anc s e pos n)

mutual
/-- Character breaking keeps every text node non-empty and every span
inhabited. -/
theorem wf_breakN : ∀ (anc : List Fmt) (s e pos : Nat) (n : DNode),
    wfN n = true → wfF (breakN anc s e pos n) = true
  | anc, s, e, pos, .text str, h => by
    rw [breakN]
    by_cases hc : 1 < str.length ∧
        max s pos - pos < min e (pos + str.length) - pos
    · rw [if_pos hc]
      apply wfF_textIf
      apply wfF_charsForest
      apply wfF_textIf
      rfl
    · rw [if_neg hc, wfF, wfF]
      simp [h]
  | anc, s, e, pos, .span f kids, h => by
    cases kids with
    | nil => rw [wfN] at h; simp at h
    | cons a b =>
      rw [wfN] at h
      have hwf : wfF (DForest.cons a b) = true := by simpa using h
      have hkids : (DForest.cons a b) ≠ .nil := by intro hc; cases hc
      have hne := breakF_ne_nil (f ++ anc) s e pos hkids
      have hbf := wf_breakF (f ++ anc) s e pos (DForest.cons a b) hwf
      rw [breakN, wfF, wfF]
      cases hb : breakF (f ++ anc) s e pos (DForest.cons a b) with
      | nil => exact absurd hb hne
      | cons x y =>
        rw [hb] at hbf
        rw [wfN]
        simp [hbf]

theorem wf_breakF : ∀ (anc : List Fmt) (s e pos : Nat) (f : DForest),
    wfF f = true → wfF (breakF anc s e pos f) = true
  | _, _, _, _, .nil, _ => rfl
  | anc, s, e, pos, .cons n rest, h => by
    rw [breakF, wfF_append]
    rw [wfF] at h
    have h1 : wfN n = true ∧ wfF rest = true := by simpa using h
    rw [wf_breakN anc s e pos n h1.1, wf_breakF anc s e (pos + n.textLen) rest h1.2]
    rfl
end

mutual
/-- The per-character update keeps every text node non-empty and every span
inhabited, and never erases a node entirely. -/
theorem wf_updateN : ∀ (rem : Bool) (fm : Fmt) (s e pos : Nat) (us : Bool)
    (n : DNode), wfN n = true →
    wfF (updateN rem fm s e pos us n) = true ∧ updateN rem fm s e pos us n ≠ .nil
  | rem, fm, s, e, pos, us, .text str, h => by
    rw [updateN]
    by_cases hc : str.length = 1 ∧ s ≤ pos ∧ pos < e ∧ us = false ∧ rem = false
    · rw [if_pos hc]
      refine ⟨?_, by intro hc'; cases hc'⟩
      rw [wfF, wfN, wfF, wfF, wfN]
      have hs : ¬str = [] := by simpa [wfN] using h
      simp [hs, show wfF .nil = true from rfl]
    · rw [if_neg hc]
      refine ⟨?_, by intro hc'; cases hc'⟩
      rw [wfF, wfF]
      have hs : ¬str = [] := by simpa [wfN] using h
      simp [wfN, hs, show wfF .nil = true from rfl]
  | rem, fm, s, e, pos, us, .span f kids, h => by
    cases kids with
    | nil => rw [wfN] at h; simp at h
    | cons a b =>
      rw [wfN] at h
      have hwf : wfF (DForest.cons a b) = true := by simpa using h
      have hkids : (DForest.cons a b) ≠ .nil := by intro hc; cases hc
      rcases wf_updateF rem fm s e pos true (DForest.cons a b) hwf with ⟨hwf', hne'⟩
      have hne'' := hne' hkids
      rw [updateN]
      by_cases ht : spanTriggers s e pos (DForest.cons a b)
      · rw [if_pos ht]
        by_cases hemp : (newSpanFmts rem fm f).isEmpty
        · rw [if_pos hemp]
          exact ⟨hwf', hne''⟩
        · rw [if_neg hemp]
          refine ⟨?_, by intro hc'; cases hc'⟩
          rw [wfF]
          cases hu : updateF rem fm s e pos true (DForest.cons a b) with
          | nil => exact absurd hu hne''
          | cons x y =>
            rw [hu] at hwf'
            rw [wfN]
            simp [hwf', show wfF .nil = true from rfl]
      · rw [if_neg ht]
        refine ⟨?_, by intro hc'; cases hc'⟩
        rw [wfF]
        cases hu : updateF rem fm s e pos true (DForest.cons a b) with
        | nil => exact absurd hu hne''
        | cons x y =>
          rw [hu] at hwf'
          rw [wfN]
          simp [hwf', show wfF .nil = true from rfl]

theorem wf_updateF : ∀ (rem : Bool) (fm : Fmt) (s e pos : Nat) (us : Bool)
    (f : DForest), wfF f = true →
    wfF (updateF rem fm s e pos us f) = true
      ∧ (f ≠ .nil → updateF rem fm s e pos us f ≠ .nil)
  | _, _, _, _, _, _, .nil, _ => ⟨rfl, fun h => absurd rfl h⟩
  | rem, fm, s, e, pos, us, .cons n rest, h => by
    rw [updateF]
    rw [wfF] at h
    have h12 : wfN n = true ∧ wfF rest = true := by simpa using h
    rcases wf_updateN rem fm s e pos us n h12.1 with ⟨hn, hnne⟩
    rcases wf_updateF rem fm s e (pos + n.textLen) us rest h12.2 with ⟨hr, -⟩
    constructor
    · rw [wfF_append, hn, hr]
      rfl
    · intro _
      exact DForest.append_ne_nil_left _ hnne
end

/-- C5 (amended): after any `applyFormat` (add or remove, any range) on
well-formed content, no run is empty — every text node stays non-empty and
every span keeps at least one child.  (Canonical merging, by contrast, does
not happen: the merge pass is disabled.) -/
theorem claim_C5_amended (fm : Fmt) (s e : Nat) (f : DForest)
    (h : wfF f = true) : wfF (applyFormatB fm s e f) = true := by
  unfold applyFormatB
  exact (wf_updateF _ fm s e 0 false _ (wf_breakF [] s e 0 f h)).1

/-- C5 (counterexample): applying bold to `[2,5)` of the canonical plain
block `hello` leaves three adjacent single-character bold spans — two
adjacent runs with an identical format set, so the result is not canonical
although the input was. -/
theorem claim_C5_counterexample :
    noAdjacentSame helloF = true ∧ wfF helloF = true
      ∧ noAdjacentSame (applyFormatB .bold 2 5 helloF) = false := by
  refine ⟨by decide, by decide, by decide⟩

/-- C5 (witness). -/
theorem claim_C5_witness :
    wfF helloF = true ∧ wfF (applyFormatB .bold 2 5 helloF) = true :=
  ⟨by decide, claim_C5_amended .bold 2 5 helloF (by decide)⟩

mutual
/-- Breaking leaves any node that starts at or after the range end
untouched. -/
theorem break_outN : ∀ (anc : List Fmt) (s e pos : Nat) (n : DNode), e ≤ pos →
    breakN anc s e pos n = .cons n .nil
  | anc, s, e, pos, .text str, h => by
    rw [breakN, if_neg (by rintro ⟨-, hlt⟩; omega)]
  | anc, s, e, pos, .span f kids, h => by
    rw [breakN, break_outF (f ++ anc) s e pos kids h]

theorem break_outF : ∀ (anc : List Fmt) (s e pos : Nat) (f : DForest), e ≤ pos →
    breakF anc s e pos f = f
  | _, _, _, _, .nil, _ => rfl
  | anc, s, e, pos, .cons n rest, h => by
    rw [breakF, break_outN anc s e pos n h,
      break_outF anc s e (pos + n.textLen) rest (by omega)]
    rw [DForest.append, DForest.append]
end

theorem spanTriggers_out : ∀ (s e pos : Nat) (f : DForest), e ≤ pos →
    spanTriggers s e pos f = false
  | _, _, _, .nil, _ => rfl
  | s, e, pos, .cons n rest, h => by
    cases n with
    | text str =>
      rw [spanTriggers,
        spanTriggers_out s e (pos + (DNode.text str).textLen) rest (by omega)]
      simp only [Bool.or_false, decide_eq_false_iff_not]
      rintro ⟨-, -, hlt⟩
      omega
    | span f kids =>
      rw [spanTriggers,
        spanTriggers_out s e (pos + (DNode.span f kids).textLen) rest (by omega)]
      rfl

mutual
/-- The update loop leaves any node at or after the range end untouched. -/
theorem update_outN : ∀ (rem : Bool) (fm : Fmt) (s e pos : Nat) (us : Bool)
    (n : DNode), e ≤ pos → updateN rem fm s e pos us n = .cons n .nil
  | rem, fm, s, e, pos, us, .text str, h => by
    rw [updateN, if_neg (by rintro ⟨-, -, hlt, -, -⟩; omega)]
  | rem, fm, s, e, pos, us, .span f kids, h => by
    rw [updateN, spanTriggers_out s e pos kids h,
      update_outF rem fm s e pos true kids h]
    simp

theorem update_outF : ∀ (rem : Bool) (fm : Fmt) (s e pos : Nat) (us : Bool)
    (f : DForest), e ≤ pos → updateF rem fm s e pos us f = f
  | _, _, _, _, _, _, .nil, _ => rfl
  | rem, fm, s, e, pos, us, .cons n rest, h => by
    rw [updateF, update_outN rem fm s e pos us n h,
      update_outF rem fm s e (pos + n.textLen) us rest (by omega)]
    rw [DForest.append, DForest.append]
end

mutual
/-- Nodes at or after the range end cannot break the all-formatted check. -/
theorem allHave_outN : ∀ (fm : Fmt) (anc : Bool) (s e pos : Nat) (n : DNode),
    e ≤ pos → allHaveN fm anc s e pos n = true
  | fm, anc, s, e, pos, .text str, h => by
    rw [allHaveN, if_neg (by rintro ⟨hlt, -⟩; omega)]
  | fm, anc, s, e, pos, .span f kids, h => by
    rw [allHaveN]
    exact allHave_outF fm (anc || f.contains fm) s e pos kids h

theorem allHave_outF : ∀ (fm : Fmt) (anc : Bool) (s e pos : Nat) (f : DForest),
    e ≤ pos → allHaveF fm anc s e pos f = true
  | _, _, _, _, _, .nil, _ => rfl
  | fm, anc, s, e, pos, .cons n rest, h => by
    rw [allHaveF, allHave_outN fm anc s e pos n h,
      allHave_outF fm anc s e (pos + n.textLen) rest (by omega)]
    rfl
end

theorem serialize_textIf (s : List Char) (t : DForest) :
    (textIf s t).serialize = s ++ t.serialize := by
  unfold textIf
  by_cases hs : s.isEmpty
  · rw [if_pos hs]
    have : s = [] := by simpa using hs
    rw [this, List.nil_append]
  · rw [if_neg hs, DForest.serialize, DNode.serialize]

/-! ## Claim C4: format round-trip -/

theorem breakFirst (c0 c1 c2 c3 c4 : Char) (rest : List Char) :
    breakF [] 2 5 0 (.cons (.text (c0 :: c1 :: c2 :: c3 :: c4 :: rest)) .nil)
      = .cons (.text [c0, c1]) (.cons (.text [c2]) (.cons (.text [c3])
          (.cons (.text [c4]) (textIf rest .nil)))) := by
  have hlen : (c0 :: c1 :: c2 :: c3 :: c4 :: rest).length = rest.length + 5 := by
    simp only [List.length_cons]
  rw [breakF, breakN, hlen]
  rw [if_pos ⟨by omega, by omega⟩]
  rw [show min 5 (0 + (rest.length + 5)) = 5 from by omega]
  rw [show max 2 0 - 0 = 2 from rfl]
  simp [textIf, charsForest, wrapChar, setToSorted, allFmts, DForest.append,
    DForest.append_nil, breakF, List.take_succ_cons, List.drop_succ_cons]

theorem shouldRemoveFirst (c0 c1 c2 c3 c4 : Char) (rest : List Char) :
    shouldRemoveB .bold 2 5
        (.cons (.text (c0 :: c1 :: c2 :: c3 :: c4 :: rest)) .nil) = false := by
  have hlen : (c0 :: c1 :: c2 :: c3 :: c4 :: rest).length = rest.length + 5 := by
    simp only [List.length_cons]
  rw [shouldRemoveB, allHaveF, allHaveN, hlen]
  rw [if_pos ⟨by omega, by omega⟩]
  simp

theorem updateFirst (c0 c1 c2 c3 c4 : Char) (T : DForest) :
    updateF false .bold 2 5 0 false (.cons (.text [c0, c1]) (.cons (.text [c2])
        (.cons (.text [c3]) (.cons (.text [c4]) T))))
      = .cons (.text [c0, c1]) (.cons (.span [.bold] (.cons (.text [c2]) .nil))
          (.cons (.span [.bold] (.cons (.text [c3]) .nil))
            (.cons (.span [.bold] (.cons (.text [c4]) .nil)) T))) := by
  rw [updateF, updateF, updateF, updateF]
  rw [show (0 : Nat) + (DNode.text [c0, c1]).textLen = 2 from rfl]
  rw [show (2 : Nat) + (DNode.text [c2]).textLen = 3 from rfl]
  rw [show (3 : Nat) + (DNode.text [c3]).textLen = 4 from rfl]
  rw [show (4 : Nat) + (DNode.text [c4]).textLen = 5 from rfl]
  rw [update_outF false .bold 2 5 5 false T (by omega)]
  simp [updateN, DForest.append]

theorem applyFirst (c0 c1 c2 c3 c4 : Char) (rest : List Char) :
    applyFormatB .bold 2 5 (.cons (.text (c0 :: c1 :: c2 :: c3 :: c4 :: rest)) .nil)
      = .cons (.text [c0, c1]) (.cons (.span [.bold] (.cons (.text [c2]) .nil))
          (.cons (.span [.bold] (.cons (.text [c3]) .nil))
            (.cons (.span [.bold] (.cons (.text [c4]) .nil)) (textIf rest .nil)))) := by
  rw [applyFormatB, shouldRemoveFirst, breakFirst, updateFirst]

theorem shouldRemoveSecond (c0 c1 c2 c3 c4 : Char) (rest : List Char) :
    shouldRemoveB .bold 2 5
        (.cons (.text [c0, c1]) (.cons (.span [.bold] (.cons (.text [c2]) .nil))
          (.cons (.span [.bold] (.cons (.text [c3]) .nil))
            (.cons (.span [.bold] (.cons (.text [c4]) .nil)) (textIf rest .nil)))))
      = true := by
  rw [shouldRemoveB]
  have htail : allHaveF .bold false 2 5 (0 + 2 + 1 + 1 + 1) (textIf rest .nil) = true :=
    allHave_outF .bold false 2 5 (0 + 2 + 1 + 1 + 1) (textIf rest .nil) (by omega)
  simp [hasTextInF, hasTextInN, allHaveF, allHaveN, DNode.textLen, DForest.textLen,
    htail]

theorem breakSecond (c0 c1 c2 c3 c4 : Char) (T : DForest) :
    breakF [] 2 5 0
        (.cons (.text [c0, c1]) (.cons (.span [.bold] (.cons (.text [c2]) .nil))
          (.cons (.span [.bold] (.cons (.text [c3]) .nil))
            (.cons (.span [.bold] (.cons (.text [c4]) .nil)) T))))
      = .cons (.text [c0, c1]) (.cons (.span [.bold] (.cons (.text [c2]) .nil))
          (.cons (.span [.bold] (.cons (.text [c3]) .nil))
            (.cons (.span [.bold] (.cons (.text [c4]) .nil)) T))) := by
  have htail : breakF [] 2 5 (0 + 2 + 1 + 1 + 1) T = T :=
    break_outF [] 2 5 (0 + 2 + 1 + 1 + 1) T (by omega)
  simp [breakF, breakN, DForest.append, DNode.textLen, DForest.textLen, htail]

theorem updateSecond (c0 c1 c2 c3 c4 : Char) (T : DForest) :
    updateF true .bold 2 5 0 false
        (.cons (.text [c0, c1]) (.cons (.span [.bold] (.cons (.text [c2]) .nil))
          (.cons (.span [.bold] (.cons (.text [c3]) .nil))
            (.cons (.span [.bold] (.cons (.text [c4]) .nil)) T))))
      = .cons (.text [c0, c1]) (.cons (.text [c2]) (.cons (.text [c3])
          (.cons (.text [c4]) T))) := by
  have htail : updateF true .bold 2 5 (0 + 2 + 1 + 1 + 1) false T = T :=
    update_outF true .bold 2 5 (0 + 2 + 1 + 1 + 1) false T (by omega)
  simp [updateF, updateN, spanTriggers, newSpanFmts, setToSorted, allFmts,
    DForest.append, DNode.textLen, DForest.textLen, htail]

theorem applySecond (c0 c1 c2 c3 c4 : Char) (rest : List Char) :
    applyFormatB .bold 2 5
        (.cons (.text [c0, c1]) (.cons (.span [.bold] (.cons (.text [c2]) .nil))
          (.cons (.span [.bold] (.cons (.text [c3]) .nil))
            (.cons (.span [.bold] (.cons (.text [c4]) .nil)) (textIf rest .nil)))))
      = .cons (.text [c0, c1]) (.cons (.text [c2]) (.cons (.text [c3])
          (.cons (.text [c4]) (textIf rest .nil)))) := by
  rw [applyFormatB, shouldRemoveSecond, breakSecond, updateSecond]

/-- C4 (amended): the bold round-trip over `[2,5)` restores the serialized
content byte-for-byte when the block is a single plain (unformatted) text
run of length at least five.  For runs that already carry formatting the
round trip leaves split and nested spans behind (see the counterexample),
because the merge pass is disabled. -/
theorem claim_C4_amended (c0 c1 c2 c3 c4 : Char) (rest : List Char) :
    DForest.serialize (applyFormatB .bold 2 5 (applyFormatB .bold 2 5
        (.cons (.text (c0 :: c1 :: c2 :: c3 :: c4 :: rest)) .nil)))
      = DForest.serialize (.cons (.text (c0 :: c1 :: c2 :: c3 :: c4 :: rest)) .nil) := by
  rw [applyFirst, applySecond]
  simp [DForest.serialize, DNode.serialize, serialize_textIf]

/-- C4 (counterexample): on the canonical one-run italic block `hello`,
applying bold to `[2,5)` twice does not restore the serialized run list:
the result keeps a split run with nested spans
(`<span data-format="italic">he<span data-format="italic">l</span>...`),
so the add-then-remove round trip is not byte-for-byte for every block. -/
theorem claim_C4_counterexample :
    noAdjacentSame italHelloF = true ∧ wfF italHelloF = true
      ∧ DForest.serialize (applyFormatB .bold 2 5 (applyFormatB .bold 2 5 italHelloF))
          ≠ DForest.serialize italHelloF := by
  refine ⟨by decide, by decide, by decide⟩

end Openword
